import Mathlib

/-
  Verification development for the gruvberry audio-spectrum visualizer
  (src/src/main.rs).  Rust f32 arithmetic is modelled over ℚ (exact
  rationals), usize over ℕ (with ℕ monus standing for saturating_sub),
  and the transcendental frequency computations (ln / exp) over ℝ.
  Fallible operations (Rust slice indexing, the render loop's `?`
  early returns) are modelled with Option and explicit outcome types.
-/

namespace Gruvberry

/-! Shared sample history (SampleCapture::next, main.rs lines 46-61).
    On each pull the sample is pushed; when the length exceeds 2048 the
    oldest 1024 samples are dropped in one bulk drain. -/

def appendSample (buf : List ℚ) (s : ℚ) : List ℚ :=
  if 2048 < (buf ++ [s]).length then (buf ++ [s]).drop 1024 else buf ++ [s]

/-! Band-to-color mapper (frequency_to_color, main.rs lines 85-118).
    `clampedTotal` is the `total.max(1)` clamp; `ratioDen` is the usize
    value `total - 1` that is cast to f32 as the division's denominator.
    `toU8` models Rust's saturating float-to-u8 cast for nonnegative
    in-range values (truncation, clamped to [0, 255]). -/

def clampedTotal (total : ℕ) : ℕ := max total 1

def ratioDen (total : ℕ) : ℕ := clampedTotal total - 1

def toU8 (q : ℚ) : ℕ := min 255 (Int.toNat ⌊q⌋)

def frequency_to_color (index total : ℕ) : ℕ × ℕ × ℕ :=
  let pos : ℚ := (index : ℚ) / ((ratioDen total : ℕ) : ℚ)
  if pos < 167/1000 then
    let t := pos / (167/1000)
    (255, toU8 (165 * t), 0)
  else if pos < 333/1000 then
    let t := (pos - 167/1000) / (166/1000)
    (255, toU8 (165 + 90 * t), 0)
  else if pos < 1/2 then
    let t := (pos - 333/1000) / (167/1000)
    (toU8 (255 * (1 - t)), 255, 0)
  else if pos < 667/1000 then
    let t := (pos - 1/2) / (167/1000)
    (0, 255, toU8 (255 * t))
  else if pos < 833/1000 then
    let t := (pos - 667/1000) / (166/1000)
    (0, toU8 (255 * (1 - t)), 255)
  else
    let t := (pos - 833/1000) / (167/1000)
    (toU8 (148 * t), 0, toU8 (255 - 44 * t))

/-! Spectrum analyzer pipeline (visualize_frequencies, main.rs lines
    186-236).  The FFT magnitude vector is taken as an input list of
    nonnegative rationals; band bin boundaries are passed as functions
    of the band index (in the source they come from the logarithmic
    partition, modelled over ℝ further below). -/

def boost (i N : ℕ) : ℚ := 1 + ((i : ℚ) / (N : ℚ)) * 2

def bandVal (mags : List ℚ) (bs be i N : ℕ) : ℚ :=
  if bs < be ∧ be ≤ mags.length then
    (((mags.drop bs).take (be - bs)).sum / (((be - bs : ℕ)) : ℚ)) * boost i N
  else 0

/-- Rust range-slice semantics: `&l[a..b]` panics (here: `none`) unless
    `a ≤ b ∧ b ≤ l.length`. -/
def sliceD (l : List ℚ) (a b : ℕ) : Option (List ℚ) :=
  if a ≤ b ∧ b ≤ l.length then some ((l.drop a).take (b - a)) else none

/-- The band aggregation of main.rs lines 213-220 with the slice access
    made explicit: `none` models an out-of-bounds slice panic. -/
def bandRawChecked (mags : List ℚ) (bs be i N : ℕ) : Option ℚ :=
  if bs < be ∧ be ≤ mags.length then
    match sliceD mags bs be with
    | some s => some ((s.sum / (((be - bs : ℕ)) : ℚ)) * boost i N)
    | none => none
  else some 0

def aggregateBands (mags : List ℚ) (N : ℕ) (binS binE : ℕ → ℕ) : List ℚ :=
  (List.range N).map (fun i => bandVal mags (binS i) (binE i) i N)

/-- Exponential smoothing, main.rs lines 224-227: factor 0.3. -/
def smoothBands (old new : List ℚ) : List ℚ :=
  List.zipWith (fun s n => s * (7/10) + n * (3/10)) old new

/-- main.rs line 230: `fold(0.0, f32::max).max(1.0)`. -/
def maxAmplitude (sm : List ℚ) : ℚ := max (sm.foldl max 0) 1

/-- main.rs lines 233-236. -/
def normalizeBands (sm : List ℚ) : List ℚ :=
  sm.map (fun b => b / maxAmplitude sm * 100)

/-! Band-count derivation and smoothing-state resize (main.rs lines
    239-264), and the guarded band lookup done per drawn cell (lines
    321-330). -/

def deriveBandCount (width numBands : ℕ) : ℕ :=
  if 80 ≤ width then (min width 160) - 4 else numBands

/-- `Vec::resize(n, 0.0)`: keep the first `n` entries, zero-fill growth. -/
def resizeBands (l : List ℚ) (n : ℕ) : List ℚ :=
  l.take n ++ List.replicate (n - l.length) 0

/-- Per-cell band lookup in the draw closure (main.rs lines 323-329):
    the column is mapped to a band index; an index `≥ normalized.len()`
    draws a blank (`none` here); otherwise `normalized_bands[band_index]`
    is read (the inner `getElem?` models the indexing, which would
    panic out of bounds). -/
def drawCell (normalized : List ℚ) (numBands sw col : ℕ) : Option ℚ :=
  let bi := col * numBands / sw
  if normalized.length ≤ bi then none else normalized[bi]?

/-! One render-loop iteration in source order (main.rs lines 186-264):
    produce this frame's bands with the CURRENT `num_bands`, smooth,
    normalize, then read the terminal width, derive the new band count
    and resize the smoothing state if it changed, then draw the
    already-normalized values.  The returned list is what the draw
    closure receives as `normalized_bands`. -/

structure VizState where
  numBands : ℕ
  smoothed : List ℚ
deriving DecidableEq

def renderIteration (st : VizState) (mags : List ℚ) (binS binE : ℕ → ℕ)
    (width : ℕ) : VizState × List ℚ :=
  let bands := aggregateBands mags st.numBands binS binE
  let sm := smoothBands st.smoothed bands
  let normalized := normalizeBands sm
  let newN := deriveBandCount width st.numBands
  let sm2 := if newN ≠ st.numBands then resizeBands sm newN else sm
  (⟨newN, sm2⟩, normalized)

/-! Control flow of the render loop's exit paths (main.rs lines
    144-167 and 466-473).  Each iteration is summarized by the event
    that decides it: a quit key (break), elapsed time or stop flag
    (break), an Err from poll/read (early return via the try operator),
    an Err from terminal.draw (early return via the try operator), or a
    completed frame (continue).  The two break paths fall through to
    the restoration code at lines 470-471; the try-operator paths
    return from visualize_frequencies before reaching it. -/

inductive FrameEvent where
  | keyQuit
  | inputErr
  | timeExpired
  | drawErr
  | frameOk
deriving DecidableEq

inductive ExitKind where
  | quit
  | done
  | errored
deriving DecidableEq

def runLoop : List FrameEvent → Option ExitKind
  | [] => none
  | e :: rest =>
    match e with
    | .keyQuit => some .quit
    | .inputErr => some .errored
    | .timeExpired => some .done
    | .drawErr => some .errored
    | .frameOk => runLoop rest

/-- Whether the restoration code (disable_raw_mode / LeaveAlternateScreen,
    main.rs lines 470-471) is reached for a given trace: only the break
    paths reach it; an error propagated by the try operator does not. -/
def restorationReached (events : List FrameEvent) : Bool :=
  match runLoop events with
  | some .quit => true
  | some .done => true
  | some .errored => false
  | none => false

/-! Logarithmic band partition (main.rs lines 196-211) over ℝ. -/

noncomputable def freqStart (sampleRate N i : ℕ) : ℝ :=
  Real.exp (Real.log 20 +
    ((i : ℝ) / (N : ℝ)) * (Real.log (((sampleRate / 2 : ℕ)) : ℝ) - Real.log 20))

/-- main.rs line 211: `(freq_end / freq_per_bin).min(512.0) as usize`
    (the float-to-usize cast saturates below zero, as Nat.floor does). -/
noncomputable def binEndOf (freqEnd freqPerBin : ℝ) : ℕ :=
  ⌊min (freqEnd / freqPerBin) 512⌋₊

/-! Helper lemmas -/

theorem appendSample_length_le (buf : List ℚ) (s : ℚ) (h : buf.length ≤ 2048) :
    (appendSample buf s).length ≤ 2048 := by
  unfold appendSample
  by_cases hc : 2048 < (buf ++ [s]).length
  · rw [if_pos hc]
    rw [List.length_drop, List.length_append, List.length_singleton]
    omega
  · rw [if_neg hc]
    rw [List.length_append, List.length_singleton]
    rw [List.length_append, List.length_singleton] at hc
    omega

/-- C4: the shared sample history's length at rest never exceeds
    2 × 1024 = 2048 for any sequence of appends starting from the empty
    buffer, and whenever an append pushes the length past 2048, the
    oldest 1024 samples are removed in a single bulk drop. -/
theorem sampleHistory_bounded :
    (∀ samples : List ℚ, (samples.foldl appendSample []).length ≤ 2048) ∧
    (∀ (buf : List ℚ) (s : ℚ), 2048 < (buf ++ [s]).length →
      appendSample buf s = (buf ++ [s]).drop 1024) := by
  constructor
  · have key : ∀ (l : List ℚ) (buf : List ℚ), buf.length ≤ 2048 →
        (l.foldl appendSample buf).length ≤ 2048 := by
      intro l
      induction l with
      | nil => intro buf h; simpa using h
      | cons x xs ih =>
        intro buf h
        simpa using ih (appendSample buf x) (appendSample_length_le buf x h)
    intro samples
    exact key samples [] (by simp)
  · intro buf s h
    unfold appendSample
    rw [if_pos h]

theorem sampleHistory_bounded_w :
    2048 < (List.replicate 2048 (0:ℚ) ++ [0]).length ∧
    appendSample (List.replicate 2048 (0:ℚ)) 0 =
      (List.replicate 2048 (0:ℚ) ++ [0]).drop 1024 :=
  ⟨by rw [List.length_append, List.length_replicate, List.length_singleton]; omega,
   sampleHistory_bounded.2 (List.replicate 2048 0) 0
     (by rw [List.length_append, List.length_replicate, List.length_singleton]; omega)⟩

/-- C2 counterexample: with total = 1 the clamp leaves total at 1, so
    the denominator of the normalized position, the usize value
    total − 1, is 0 — the division in index/(total − 1) is a division
    by zero, so the clamp does not avoid division by zero at total = 1. -/
theorem color_divisor_zero_cex : ratioDen 1 = 0 ∧ clampedTotal 1 = 1 := by decide

/-- C2 (amended): the clamp total.max(1) guarantees the clamped total is
    at least 1, so the usize subtraction total − 1 cannot underflow; the
    division's denominator is zero exactly when total ≤ 1, so division
    by zero is avoided precisely for total ≥ 2 (at total = 1 the f32
    division by zero still occurs; it is IEEE-defined and does not
    panic, the call returning a color rather than failing). -/
theorem color_clamp_amended :
    ∀ total : ℕ, 1 ≤ clampedTotal total ∧ (ratioDen total = 0 ↔ total ≤ 1) := by
  intro total
  unfold ratioDen clampedTotal
  omega

/-- C1: code evaluation at the failing trace.  A render loop whose
    second iteration's terminal.draw returns an error exits with the
    error propagated by the try operator, and the terminal-restoration
    step (main.rs lines 470-471) is NOT reached — while the user-quit
    and elapsed-time exits do reach it.  This contradicts the claim
    that restoration happens unconditionally on every exit path. -/
theorem restoration_skipped_on_draw_error :
    runLoop [FrameEvent.frameOk, FrameEvent.drawErr] = some ExitKind.errored ∧
    restorationReached [FrameEvent.frameOk, FrameEvent.drawErr] = false ∧
    runLoop [FrameEvent.inputErr] = some ExitKind.errored ∧
    restorationReached [FrameEvent.inputErr] = false ∧
    restorationReached [FrameEvent.frameOk, FrameEvent.keyQuit] = true ∧
    restorationReached [FrameEvent.timeExpired] = true := by decide

/-- C9: frequency_to_color is a pure function — two calls with the same
    (index, total) arguments yield the same RGB triple — and for every
    total N ≥ 2 the first band is pure red (255, 0, 0) and the last
    band is violet (148, 0, 211). -/
theorem frequency_to_color_endpoints (N : ℕ) (hN : 2 ≤ N) :
    (∀ i t, frequency_to_color i t = frequency_to_color i t) ∧
    frequency_to_color 0 N = (255, 0, 0) ∧
    frequency_to_color (N - 1) N = (148, 0, 211) := by
  refine ⟨fun i t => rfl, ?_, ?_⟩
  · unfold frequency_to_color
    norm_num [toU8]
  · have hden : ratioDen N = N - 1 := by
      unfold ratioDen clampedTotal; omega
    have hne : (((N - 1 : ℕ)) : ℚ) ≠ 0 := by
      have h1 : 0 < N - 1 := by omega
      exact_mod_cast Nat.pos_iff_ne_zero.mp h1
    unfold frequency_to_color
    rw [hden, div_self hne]
    norm_num [toU8]
    decide

theorem frequency_to_color_endpoints_w :
    2 ≤ 7 ∧ frequency_to_color 0 7 = (255, 0, 0) ∧
    frequency_to_color 6 7 = (148, 0, 211) :=
  ⟨by decide, (frequency_to_color_endpoints 7 (by decide)).2.1,
   (frequency_to_color_endpoints 7 (by decide)).2.2⟩

/-- C7: when the band count changes, Vec::resize keeps the value at
    every index that exists both before and after, zero-fills every
    newly added index, and yields exactly the new length; and the draw
    closure's guarded band lookup performs an in-bounds access whenever
    the guard lets it through (so drawing after a resize reads no band
    index out of bounds, for any combination of band count, width and
    column). -/
theorem resizeBands_preserves_draw_inbounds :
    (∀ (old : List ℚ) (n : ℕ),
      (resizeBands old n).length = n ∧
      (∀ i, i < old.length → i < n → (resizeBands old n)[i]? = old[i]?) ∧
      (∀ i, old.length ≤ i → i < n → (resizeBands old n)[i]? = some 0)) ∧
    (∀ (normalized : List ℚ) (numBands sw col : ℕ),
      col * numBands / sw < normalized.length →
      (drawCell normalized numBands sw col).isSome = true ∧
      drawCell normalized numBands sw col = normalized[col * numBands / sw]?) := by
  constructor
  · intro old n
    refine ⟨?_, ?_, ?_⟩
    · rw [resizeBands, List.length_append, List.length_take, List.length_replicate]
      omega
    · intro i hiold hin
      rw [resizeBands, List.getElem?_append_left
            (by rw [List.length_take]; omega)]
      exact List.getElem?_take_of_lt hin
    · intro i hiold hin
      rw [resizeBands, List.getElem?_append_right
            (by rw [List.length_take]; omega)]
      rw [List.length_take]
      rw [List.getElem?_replicate_of_lt (by omega)]
  · intro normalized numBands sw col h
    have hguard : ¬ normalized.length ≤ col * numBands / sw := by omega
    constructor
    · rw [drawCell]
      simp only [hguard, if_false]
      simp [List.getElem?_eq_getElem h]
    · rw [drawCell]
      simp only [hguard, if_false]

theorem resizeBands_preserves_draw_inbounds_w :
    ((1:ℕ) < 2 ∧ (1:ℕ) < 3 ∧ (resizeBands [5, 7] 3)[1]? = some 7) ∧
    ((2:ℕ) ≤ 2 ∧ (2:ℕ) < 3 ∧ (resizeBands [5, 7] 3)[2]? = some 0) ∧
    (1 * 3 / 3 < ([4, 8, 9] : List ℚ).length ∧
      (drawCell [4, 8, 9] 3 3 1).isSome = true) :=
  ⟨⟨by decide, by decide,
    by rw [(resizeBands_preserves_draw_inbounds.1 [5, 7] 3).2.1 1 (by decide) (by decide)]
       rfl⟩,
   ⟨by decide, by decide,
    (resizeBands_preserves_draw_inbounds.1 [5, 7] 3).2.2 2 (by decide) (by decide)⟩,
   ⟨by decide,
    (resizeBands_preserves_draw_inbounds.2 [4, 8, 9] 3 3 1 (by decide)).1⟩⟩

theorem aggregateBands_length (mags : List ℚ) (N : ℕ) (binS binE : ℕ → ℕ) :
    (aggregateBands mags N binS binE).length = N := by
  rw [aggregateBands, List.length_map, List.length_range]

theorem smoothBands_length (old new : List ℚ) :
    (smoothBands old new).length = min old.length new.length := by
  rw [smoothBands, List.length_zipWith]

theorem normalizeBands_length (sm : List ℚ) :
    (normalizeBands sm).length = sm.length := by
  rw [normalizeBands, List.length_map]

theorem resizeBands_length (l : List ℚ) (n : ℕ) :
    (resizeBands l n).length = n := by
  rw [resizeBands, List.length_append, List.length_take, List.length_replicate]
  omega

/-- C3 counterexample: an iteration starting with band count 2 whose
    terminal width is 100 derives the new band count 96, yet the band
    values handed to the draw closure that same frame still have length
    2 — they were produced with the previous frame's layout, before the
    smoothing state was resized. -/
theorem resize_order_cex :
    deriveBandCount 100 2 = 96 ∧
    (renderIteration ⟨2, [0, 0]⟩ [] (fun _ => 0) (fun _ => 0) 100).1.numBands = 96 ∧
    ((renderIteration ⟨2, [0, 0]⟩ [] (fun _ => 0) (fun _ => 0) 100).2).length = 2 := by
  decide

/-- C3 (amended): within an iteration, the band magnitudes are produced
    with the band count carried over from the previous frame; the new
    band count is derived and the smoothing state resized only after
    that production (but before the frame is drawn), so the values
    drawn in the changing frame have the old length while the resized
    state takes effect for the next frame's production. -/
theorem resize_order_amended (st : VizState) (mags : List ℚ) (binS binE : ℕ → ℕ)
    (width : ℕ) (h : st.smoothed.length = st.numBands) :
    ((renderIteration st mags binS binE width).2).length = st.numBands ∧
    (renderIteration st mags binS binE width).1.numBands =
      deriveBandCount width st.numBands ∧
    ((renderIteration st mags binS binE width).1.smoothed).length =
      deriveBandCount width st.numBands := by
  have hsm : (smoothBands st.smoothed (aggregateBands mags st.numBands binS binE)).length
      = st.numBands := by
    rw [smoothBands_length, aggregateBands_length, h]
    omega
  refine ⟨?_, rfl, ?_⟩
  · rw [renderIteration]
    simp only []
    rw [normalizeBands_length, hsm]
  · rw [renderIteration]
    simp only []
    by_cases hc : deriveBandCount width st.numBands ≠ st.numBands
    · rw [if_pos hc, resizeBands_length]
    · rw [if_neg hc]
      push_neg at hc
      rw [hsm, hc]

theorem resize_order_amended_w :
    ([0, 0] : List ℚ).length = 2 ∧
    ((renderIteration ⟨2, [0, 0]⟩ [] (fun _ => 0) (fun _ => 0) 100).2).length = 2 ∧
    ((renderIteration ⟨2, [0, 0]⟩ [] (fun _ => 0) (fun _ => 0) 100).1.smoothed).length = 96 :=
  ⟨by decide,
   (resize_order_amended ⟨2, [0, 0]⟩ [] (fun _ => 0) (fun _ => 0) 100 (by decide)).1,
   (resize_order_amended ⟨2, [0, 0]⟩ [] (fun _ => 0) (fun _ => 0) 100 (by decide)).2.2⟩

theorem boost_nonneg (i N : ℕ) : 0 ≤ boost i N := by
  rw [boost]
  positivity

theorem bandVal_nonneg (mags : List ℚ) (hm : ∀ x ∈ mags, 0 ≤ x)
    (bs be i N : ℕ) : 0 ≤ bandVal mags bs be i N := by
  rw [bandVal]
  split
  · apply mul_nonneg _ (boost_nonneg i N)
    apply div_nonneg _ (by positivity)
    apply List.sum_nonneg
    intro x hx
    exact hm x (List.drop_subset bs mags (List.take_subset _ _ hx))
  · exact le_refl 0

theorem aggregateBands_nonneg (mags : List ℚ) (hm : ∀ x ∈ mags, 0 ≤ x)
    (N : ℕ) (binS binE : ℕ → ℕ) :
    ∀ v ∈ aggregateBands mags N binS binE, 0 ≤ v := by
  intro v hv
  rw [aggregateBands, List.mem_map] at hv
  obtain ⟨i, _, rfl⟩ := hv
  exact bandVal_nonneg mags hm _ _ i N

theorem smoothBands_nonneg (old new : List ℚ) (ho : ∀ x ∈ old, 0 ≤ x)
    (hn : ∀ x ∈ new, 0 ≤ x) : ∀ x ∈ smoothBands old new, 0 ≤ x := by
  induction old generalizing new with
  | nil => intro x hx; rw [smoothBands] at hx; simp at hx
  | cons a as ih =>
    intro x hx
    cases new with
    | nil => rw [smoothBands] at hx; simp at hx
    | cons b bs =>
      rw [smoothBands, List.zipWith_cons_cons] at hx
      rcases List.mem_cons.mp hx with h | h
      · subst h
        have ha : 0 ≤ a := ho a (List.mem_cons_self a as)
        have hb : 0 ≤ b := hn b (List.mem_cons_self b bs)
        positivity
      · exact ih bs (fun y hy => ho y (List.mem_cons_of_mem a hy))
          (fun y hy => hn y (List.mem_cons_of_mem b hy)) x h

theorem foldl_max_init_le (l : List ℚ) (a : ℚ) : a ≤ l.foldl max a := by
  induction l generalizing a with
  | nil => simp
  | cons x xs ih =>
    rw [List.foldl_cons]
    exact le_trans (le_max_left a x) (ih (max a x))

theorem mem_le_foldl_max (l : List ℚ) (x : ℚ) (hx : x ∈ l) (a : ℚ) :
    x ≤ l.foldl max a := by
  induction l generalizing a with
  | nil => cases hx
  | cons y ys ih =>
    rw [List.foldl_cons]
    rcases List.mem_cons.mp hx with h | h
    · subst h
      exact le_trans (le_max_right a x) (foldl_max_init_le ys (max a x))
    · exact ih h (max a y)

theorem maxAmplitude_ge_one (sm : List ℚ) : 1 ≤ maxAmplitude sm :=
  le_max_right _ _

theorem maxAmplitude_ge_mem (sm : List ℚ) (x : ℚ) (hx : x ∈ sm) :
    x ≤ maxAmplitude sm :=
  le_trans (mem_le_foldl_max sm x hx 0) (le_max_left _ _)

theorem normalizeBands_mem_bounds (sm : List ℚ) (hsm : ∀ x ∈ sm, 0 ≤ x) :
    ∀ v ∈ normalizeBands sm, 0 ≤ v ∧ v ≤ 100 := by
  intro v hv
  rw [normalizeBands, List.mem_map] at hv
  obtain ⟨b, hb, rfl⟩ := hv
  have hM1 : (1:ℚ) ≤ maxAmplitude sm := maxAmplitude_ge_one sm
  have hM0 : (0:ℚ) < maxAmplitude sm := lt_of_lt_of_le one_pos hM1
  have hbM : b ≤ maxAmplitude sm := maxAmplitude_ge_mem sm b hb
  constructor
  · exact mul_nonneg (div_nonneg (hsm b hb) hM0.le) (by norm_num)
  · have hdiv : b / maxAmplitude sm ≤ 1 := (div_le_one hM0).mpr hbM
    calc b / maxAmplitude sm * 100 ≤ 1 * 100 :=
          mul_le_mul_of_nonneg_right hdiv (by norm_num)
      _ = 100 := one_mul 100

/-- C5: for every band count N ≥ 1, every list of (nonnegative) FFT
    magnitudes, every nonnegative smoothing state of matching length
    and any bin partition, one analysis frame produces exactly N
    normalized band values, each within [0, 100], and the
    normalization divisor is floored at 1. -/
theorem analyzer_bands_bounded (N : ℕ) (hN : 1 ≤ N) (mags : List ℚ)
    (hm : ∀ x ∈ mags, 0 ≤ x) (sm : List ℚ) (hlen : sm.length = N)
    (hsm : ∀ x ∈ sm, 0 ≤ x) (binS binE : ℕ → ℕ) :
    (normalizeBands (smoothBands sm (aggregateBands mags N binS binE))).length = N ∧
    1 ≤ maxAmplitude (smoothBands sm (aggregateBands mags N binS binE)) ∧
    ∀ v ∈ normalizeBands (smoothBands sm (aggregateBands mags N binS binE)),
      0 ≤ v ∧ v ≤ 100 := by
  refine ⟨?_, maxAmplitude_ge_one _, ?_⟩
  · rw [normalizeBands_length, smoothBands_length, aggregateBands_length, hlen]
    omega
  · exact normalizeBands_mem_bounds _
      (smoothBands_nonneg sm _ hsm (aggregateBands_nonneg mags hm N binS binE))

theorem analyzer_bands_bounded_w :
    (1 ≤ 1) ∧ ([ (0:ℚ) ].length = 1) ∧
    (normalizeBands (smoothBands [0] (aggregateBands [] 1 (fun _ => 0) (fun _ => 0)))).length = 1 :=
  ⟨by decide, by decide,
   (analyzer_bands_bounded 1 (by decide) [] (by simp) [0] (by decide)
     (by intro x hx; rw [List.mem_singleton] at hx; rw [hx]) (fun _ => 0) (fun _ => 0)).1⟩

/-- C8: for every band count N ≥ 2 and every sample rate whose Nyquist
    frequency (the integer sample_rate / 2 the source casts to f32)
    exceeds 20 Hz, the logarithmically spaced band start frequencies
    are strictly increasing in the band index. -/
theorem freqStart_strictMono (sampleRate N : ℕ) (hN : 2 ≤ N)
    (hr : 20 < sampleRate / 2) :
    ∀ i, i < N - 1 → freqStart sampleRate N i < freqStart sampleRate N (i + 1) := by
  intro i _
  rw [freqStart, freqStart]
  rw [Real.exp_lt_exp]
  apply add_lt_add_left
  have hNpos : (0:ℝ) < (N:ℝ) := by
    have : 0 < N := by omega
    exact_mod_cast this
  have hlog : Real.log 20 < Real.log (((sampleRate / 2 : ℕ)) : ℝ) := by
    apply Real.log_lt_log (by norm_num)
    exact_mod_cast hr
  have hfrac : (i:ℝ) / (N:ℝ) < (((i + 1 : ℕ)):ℝ) / (N:ℝ) := by
    rw [div_lt_div_iff_of_pos_right hNpos]
    push_cast
    linarith
  exact mul_lt_mul_of_pos_right hfrac (sub_pos.mpr hlog)

theorem freqStart_strictMono_w :
    2 ≤ 4 ∧ 20 < 44100 / 2 ∧ 0 < 4 - 1 ∧
    freqStart 44100 4 0 < freqStart 44100 4 1 :=
  ⟨by decide, by decide, by decide,
   freqStart_strictMono 44100 4 (by decide) (by decide) 0 (by decide)⟩

/-- C10: the bin range used for band aggregation is clamped to 512 by
    the min(512.0) cast; the guarded slice access never goes out of
    bounds (the checked aggregation always returns a value, never the
    panic case, and it agrees with the total function used by the rest
    of the development); under the guard the averaging divisor
    bin_end − bin_start is strictly positive; and a band whose range
    fails the guard keeps raw magnitude 0 for that frame. -/
theorem band_bin_access_safe :
    (∀ fe fpb : ℝ, binEndOf fe fpb ≤ 512) ∧
    (∀ (mags : List ℚ) (bs be i N : ℕ),
      bandRawChecked mags bs be i N = some (bandVal mags bs be i N)) ∧
    (∀ bs be : ℕ, bs < be → (0:ℚ) < (((be - bs : ℕ)) : ℚ)) ∧
    (∀ (mags : List ℚ) (bs be i N : ℕ),
      ¬(bs < be ∧ be ≤ mags.length) → bandVal mags bs be i N = 0) := by
  refine ⟨?_, ?_, ?_, ?_⟩
  · intro fe fpb
    rw [binEndOf]
    calc ⌊min (fe / fpb) 512⌋₊ ≤ ⌊(512:ℝ)⌋₊ :=
          Nat.floor_le_floor (min_le_right _ _)
      _ = 512 := by norm_num
  · intro mags bs be i N
    rw [bandRawChecked, bandVal, sliceD]
    by_cases hg : bs < be ∧ be ≤ mags.length
    · rw [if_pos hg, if_pos hg, if_pos ⟨le_of_lt hg.1, hg.2⟩]
    · rw [if_neg hg, if_neg hg]
  · intro bs be h
    have : 0 < be - bs := Nat.sub_pos_of_lt h
    exact_mod_cast this
  · intro mags bs be i N hg
    rw [bandVal, if_neg hg]

theorem band_bin_access_safe_w :
    ((0:ℕ) < 1 ∧ (0:ℚ) < (((1 - 0 : ℕ)) : ℚ)) ∧
    (¬((1:ℕ) < 1 ∧ (1:ℕ) ≤ ([] : List ℚ).length) ∧ bandVal [] 1 1 0 1 = 0) :=
  ⟨⟨by decide, band_bin_access_safe.2.2.1 0 1 (by decide)⟩,
   ⟨by simp, band_bin_access_safe.2.2.2 [] 1 1 0 1 (by simp)⟩⟩

end Gruvberry
